import Mathlib

/-!
Verification of the Philosophy Social Media Agent repository.

Python strings are embedded as `List Char`.  Each definition below is a
shallow embedding of a function of the repository (file and line numbers in
the doc comments refer to the repository sources).  Quantities that the code
obtains from the outside world (font metrics, JPEG file sizes, HTTP status
codes and response bodies) are passed in as explicit parameters.
-/

namespace PhilosophyAgent

/-! ### Layout constants of `ImageGenerator` (src/image_generator.py, lines 27-28, 137)

`self.image_size = (1080, 1080)`, `self.margin = 80`,
`text_area_width = self.image_size[0] - (2 * self.margin)`. -/

def imageWidth : Nat := 1080

def margin : Nat := 80

def textAreaWidth : Nat := imageWidth - 2 * margin

/-! ### `str.split()` — whitespace tokenisation used by `_wrap_text` (line 82)

Python's `text.split()` splits on runs of whitespace and never returns empty
tokens.  `splitCore` folds over the characters from the right; the state is
the list of completed words to the right together with the (possibly empty)
word currently being read. -/

def splitStep (c : Char) (st : List (List Char) × List Char) : List (List Char) × List Char :=
  if c.isWhitespace then
    if st.2 = [] then (st.1, []) else (st.2 :: st.1, [])
  else
    (st.1, c :: st.2)

def splitCore (l : List Char) : List (List Char) × List Char :=
  l.foldr splitStep ([], [])

/-- Model of Python `text.split()` (no separator argument). -/
def splitWords (l : List Char) : List (List Char) :=
  let st := splitCore l
  if st.2 = [] then st.1 else st.2 :: st.1

/-- `' '.join(words)` (src/image_generator.py, lines 87, 95, 99). -/
def sjoin : List (List Char) → List Char
  | [] => []
  | [w] => w
  | w :: ws => w ++ ' ' :: sjoin ws

/-! ### `_wrap_text` (src/image_generator.py, lines 80-101)

The rendered pixel width `bbox[2] - bbox[0]` of a string under the active
font is abstracted as a function `w : List Char → Nat`. -/

/-- One iteration of the `for word in words` loop of `_wrap_text`
(lines 86-96).  State: the completed `lines` and the words of
`current_line`. -/
def wrapStep (w : List Char → Nat) (maxW : Nat)
    (st : List (List Char) × List (List Char)) (word : List Char) :
    List (List Char) × List (List Char) :=
  if w (sjoin (st.2 ++ [word])) ≤ maxW then
    (st.1, st.2 ++ [word])
  else
    ((if st.2 = [] then st.1 else st.1 ++ [sjoin st.2]), [word])

/-- Model of `ImageGenerator._wrap_text(text, font, max_width)`
(src/image_generator.py, lines 80-101), with the font's bounding-box width
metric abstracted as `w`. -/
def wrapText (w : List Char → Nat) (maxW : Nat) (text : List Char) : List (List Char) :=
  let words := splitWords text
  let st := words.foldl (wrapStep w maxW) ([], [])
  let lines := if st.2 = [] then st.1 else st.1 ++ [sjoin st.2]
  if lines = [] then [text] else lines

/-! ### Basic facts about `splitWords` -/

/-- A word produced by `splitWords` is non-empty and contains no
whitespace. -/
def okWord (word : List Char) : Prop :=
  word ≠ [] ∧ ∀ c ∈ word, c.isWhitespace = false

theorem splitCore_nonws (word : List Char) (st : List (List Char) × List Char)
    (h : ∀ c ∈ word, c.isWhitespace = false) :
    word.foldr splitStep st = (st.1, word ++ st.2) := by
  induction word with
  | nil => rfl
  | cons c cs ih =>
    have hc : c.isWhitespace = false := h c (by simp)
    have ih' := ih (fun c hc => h c (by simp [hc]))
    simp [List.foldr_cons, ih', splitStep, hc]

theorem splitWords_word_append (word rest : List Char) (hok : okWord word) :
    splitWords (word ++ ' ' :: rest) = word :: splitWords rest := by
  obtain ⟨hne, hnws⟩ := hok
  have hcore : splitCore (word ++ ' ' :: rest)
      = ((splitWords rest), word) := by
    have h1 : splitCore (word ++ ' ' :: rest)
        = word.foldr splitStep (splitCore (' ' :: rest)) := by
      simp [splitCore, List.foldr_append]
    have h2 : splitCore (' ' :: rest)
        = ((splitWords rest), []) := by
      simp only [splitCore, List.foldr_cons]
      show splitStep ' ' (splitCore rest) = _
      simp only [splitStep, splitWords]
      have : (' ').isWhitespace = true := by decide
      by_cases h : (splitCore rest).2 = [] <;> simp [this, h]
    rw [h1, h2, splitCore_nonws word _ hnws]
    simp
  simp [splitWords, hcore, hne]

theorem splitWords_sjoin (ws : List (List Char)) (h : ∀ x ∈ ws, okWord x) :
    splitWords (sjoin ws) = ws := by
  induction ws with
  | nil => rfl
  | cons x xs ih =>
    cases xs with
    | nil =>
      obtain ⟨hne, hnws⟩ := h x (by simp)
      have hcore : splitCore (sjoin [x]) = ([], x) := by
        have := splitCore_nonws x ([], []) hnws
        simpa [splitCore, sjoin] using this
      simp [splitWords, hcore, hne]
    | cons y ys =>
      have hx := h x (by simp)
      have hrest := ih (fun z hz => h z (by simp [hz]))
      calc splitWords (sjoin (x :: y :: ys))
          = splitWords (x ++ ' ' :: sjoin (y :: ys)) := rfl
        _ = x :: splitWords (sjoin (y :: ys)) := splitWords_word_append _ _ hx
        _ = x :: y :: ys := by rw [hrest]

theorem splitCore_ok (l : List Char) :
    (∀ x ∈ (splitCore l).1, okWord x) ∧ (∀ c ∈ (splitCore l).2, c.isWhitespace = false) := by
  induction l with
  | nil => exact ⟨by simp [splitCore], by simp [splitCore]⟩
  | cons c cs ih =>
    obtain ⟨ih1, ih2⟩ := ih
    have hstep : splitCore (c :: cs) = splitStep c (splitCore cs) := rfl
    rw [hstep]
    unfold splitStep
    by_cases hw : c.isWhitespace
    · rw [if_pos hw]
      by_cases hc : (splitCore cs).2 = []
      · rw [if_pos hc]
        exact ⟨ih1, by simp⟩
      · rw [if_neg hc]
        refine ⟨?_, by simp⟩
        intro x hx
        rcases List.mem_cons.mp hx with h | h
        · exact h ▸ ⟨hc, ih2⟩
        · exact ih1 x h
    · rw [if_neg hw]
      have hw' : c.isWhitespace = false := by simpa using hw
      refine ⟨ih1, ?_⟩
      intro d hd
      rcases List.mem_cons.mp hd with h | h
      · exact h ▸ hw'
      · exact ih2 d h

theorem splitWords_ok (l : List Char) : ∀ x ∈ splitWords l, okWord x := by
  intro x hx
  obtain ⟨h1, h2⟩ := splitCore_ok l
  simp only [splitWords] at hx
  by_cases hc : (splitCore l).2 = []
  · exact h1 x (by simpa [hc] using hx)
  · simp only [hc, if_false] at hx
    rcases List.mem_cons.mp hx with h | h
    · exact h ▸ ⟨hc, h2⟩
    · exact h1 x h

theorem splitWords_eq_nil (l : List Char) (h : splitWords l = []) :
    ∀ c ∈ l, c.isWhitespace = true := by
  induction l with
  | nil => simp
  | cons c cs ih =>
    intro d hd
    have hstep : splitCore (c :: cs) = splitStep c (splitCore cs) := rfl
    by_cases hw : c.isWhitespace
    · -- the head is whitespace; the tail must also split to nothing
      have htail : splitWords cs = [] := by
        simp only [splitWords, hstep, splitStep, hw, if_true] at h ⊢
        by_cases hc : (splitCore cs).2 = []
        · simpa [hc] using h
        · simp [hc] at h
      rcases List.mem_cons.mp hd with rfl | hmem
      · exact hw
      · exact ih htail d hmem
    · -- a non-whitespace head always yields a word
      exfalso
      have hw' : c.isWhitespace = false := by simpa using hw
      simp [splitWords, hstep, splitStep, hw'] at h

/-! ### Invariants of the greedy wrap loop -/

theorem wrapStep_fits (w : List Char → Nat) (maxW : Nat) (st word)
    (hle : w (sjoin (st.2 ++ [word])) ≤ maxW) :
    wrapStep w maxW st word = (st.1, st.2 ++ [word]) := by
  simp [wrapStep, hle]

theorem wrapStep_overflow_nil (w : List Char → Nat) (maxW : Nat) (st word)
    (_hle : ¬ w (sjoin (st.2 ++ [word])) ≤ maxW) (hc : st.2 = []) :
    wrapStep w maxW st word = (st.1, [word]) := by
  simp [wrapStep, hc]

theorem wrapStep_overflow (w : List Char → Nat) (maxW : Nat) (st word)
    (hle : ¬ w (sjoin (st.2 ++ [word])) ≤ maxW) (hc : st.2 ≠ []) :
    wrapStep w maxW st word = (st.1 ++ [sjoin st.2], [word]) := by
  simp [wrapStep, hle, hc]

theorem sjoin_singleton (x : List Char) : sjoin [x] = x := rfl

theorem sjoin_append_singleton (g : List (List Char)) (x : List Char) (hg : g ≠ []) :
    sjoin (g ++ [x]) = sjoin g ++ ' ' :: x := by
  induction g with
  | nil => exact absurd rfl hg
  | cons y ys ih =>
    cases ys with
    | nil => rfl
    | cons z zs =>
      have : sjoin ((y :: z :: zs) ++ [x]) = y ++ ' ' :: sjoin ((z :: zs) ++ [x]) := rfl
      rw [this, ih (by simp)]
      simp [sjoin]

/-- After the loop has processed at least one word the current line is
non-empty (every branch of the loop body ends with `word` in
`current_line`). -/
theorem wrapFold_cur_ne (w : List Char → Nat) (maxW : Nat) :
    ∀ (ws : List (List Char)) (st : List (List Char) × List (List Char)),
      (ws ≠ [] ∨ st.2 ≠ []) → (ws.foldl (wrapStep w maxW) st).2 ≠ [] := by
  intro ws
  induction ws with
  | nil =>
    intro st h
    rcases h with h | h
    · exact absurd rfl h
    · exact h
  | cons word rest ih =>
    intro st _
    rw [List.foldl_cons]
    refine ih _ (Or.inr ?_)
    unfold wrapStep
    by_cases hle : w (sjoin (st.2 ++ [word])) ≤ maxW
    · rw [if_pos hle]; simp
    · rw [if_neg hle]; simp

/-- Flattening invariant: the words of the completed lines followed by the
words of the current line are exactly the initial ones plus the processed
words, in order. -/
theorem wrapFold_flatten (w : List Char → Nat) (maxW : Nat) :
    ∀ (ws : List (List Char)) (st : List (List Char) × List (List Char)),
      (∀ x ∈ ws, okWord x) → (∀ x ∈ st.2, okWord x) →
      (((ws.foldl (wrapStep w maxW) st).1.map splitWords).flatten
          ++ (ws.foldl (wrapStep w maxW) st).2
        = (st.1.map splitWords).flatten ++ st.2 ++ ws)
      ∧ (∀ x ∈ (ws.foldl (wrapStep w maxW) st).2, okWord x) := by
  intro ws
  induction ws with
  | nil => intro st _ hcur; exact ⟨by simp, hcur⟩
  | cons word rest ih =>
    intro st hws hcur
    have hword : okWord word := hws word (by simp)
    have hrest : ∀ x ∈ rest, okWord x := fun x hx => hws x (by simp [hx])
    rw [List.foldl_cons]
    by_cases hle : w (sjoin (st.2 ++ [word])) ≤ maxW
    · rw [wrapStep_fits w maxW st word hle]
      have hcur' : ∀ x ∈ st.2 ++ [word], okWord x := by
        intro x hx
        rcases List.mem_append.mp hx with h | h
        · exact hcur x h
        · simpa using (List.mem_singleton.mp h) ▸ hword
      obtain ⟨ih1, ih2⟩ := ih (st.1, st.2 ++ [word]) hrest hcur'
      refine ⟨?_, ih2⟩
      rw [ih1]; simp
    · by_cases hc : st.2 = []
      · rw [wrapStep_overflow_nil w maxW st word hle hc]
        obtain ⟨ih1, ih2⟩ := ih (st.1, [word]) hrest (by simpa using hword)
        refine ⟨?_, ih2⟩
        rw [ih1]; simp [hc]
      · rw [wrapStep_overflow w maxW st word hle hc]
        obtain ⟨ih1, ih2⟩ :=
          ih (st.1 ++ [sjoin st.2], [word]) hrest (by simpa using hword)
        refine ⟨?_, ih2⟩
        rw [ih1]
        simp [splitWords_sjoin st.2 hcur]

/-- Width invariant for claim C1: when every word fits individually, every
completed line fits and so does the current line. -/
theorem wrapFold_width (w : List Char → Nat) (maxW : Nat) :
    ∀ (ws : List (List Char)) (st : List (List Char) × List (List Char)),
      (∀ x ∈ ws, w x ≤ maxW) →
      (∀ l ∈ st.1, w l ≤ maxW) → (st.2 = [] ∨ w (sjoin st.2) ≤ maxW) →
      (∀ l ∈ (ws.foldl (wrapStep w maxW) st).1, w l ≤ maxW)
      ∧ ((ws.foldl (wrapStep w maxW) st).2 = []
          ∨ w (sjoin (ws.foldl (wrapStep w maxW) st).2) ≤ maxW) := by
  intro ws
  induction ws with
  | nil => intro st _ h1 h2; exact ⟨h1, h2⟩
  | cons word rest ih =>
    intro st hws h1 h2
    have hword : w word ≤ maxW := hws word (by simp)
    have hrest : ∀ x ∈ rest, w x ≤ maxW := fun x hx => hws x (by simp [hx])
    rw [List.foldl_cons]
    by_cases hle : w (sjoin (st.2 ++ [word])) ≤ maxW
    · rw [wrapStep_fits w maxW st word hle]
      exact ih (st.1, st.2 ++ [word]) hrest h1 (Or.inr hle)
    · by_cases hc : st.2 = []
      · rw [wrapStep_overflow_nil w maxW st word hle hc]
        exact ih (st.1, [word]) hrest h1 (Or.inr (by simpa [sjoin] using hword))
      · rw [wrapStep_overflow w maxW st word hle hc]
        refine ih (st.1 ++ [sjoin st.2], [word]) hrest ?_
          (Or.inr (by simpa [sjoin] using hword))
        intro l hl
        rcases List.mem_append.mp hl with h | h
        · exact h1 l h
        · rcases h2 with h2 | h2
          · exact absurd h2 hc
          · exact (List.mem_singleton.mp h) ▸ h2

/-- Once a too-wide word is at hand, it ends the fold either as a completed
line of its own or alone in the current line.  The two metric hypotheses say
that, under the font's bounding-box width, extending a string on either side
(with a space in between) never shrinks it. -/
theorem wrapFold_wide (w : List Char → Nat) (maxW : Nat) (word : List Char)
    (hpre : ∀ s t : List Char, w s ≤ w (s ++ ' ' :: t))
    (hsuf : ∀ s t : List Char, w t ≤ w (s ++ ' ' :: t))
    (hwide : maxW < w word) :
    ∀ (ws : List (List Char)) (st : List (List Char) × List (List Char)),
      (word ∈ ws ∨ word ∈ st.1 ∨ st.2 = [word]) →
      (word ∈ (ws.foldl (wrapStep w maxW) st).1
        ∨ (ws.foldl (wrapStep w maxW) st).2 = [word]) := by
  intro ws
  induction ws with
  | nil =>
    intro st h
    rcases h with h | h | h
    · simp at h
    · exact Or.inl h
    · exact Or.inr h
  | cons x rest ih =>
    intro st h
    rw [List.foldl_cons]
    -- established positions of `word` are preserved by one step
    have hkeep : word ∈ st.1 ∨ st.2 = [word] →
        word ∈ (wrapStep w maxW st x).1 ∨ (wrapStep w maxW st x).2 = [word] := by
      intro hpos
      rcases hpos with hpos | hpos
      · -- `word` is already a completed line; lines only grow
        by_cases hle : w (sjoin (st.2 ++ [x])) ≤ maxW
        · rw [wrapStep_fits w maxW st x hle]; exact Or.inl hpos
        · by_cases hc : st.2 = []
          · rw [wrapStep_overflow_nil w maxW st x hle hc]; exact Or.inl hpos
          · rw [wrapStep_overflow w maxW st x hle hc]
            exact Or.inl (List.mem_append.mpr (Or.inl hpos))
      · -- `word` is alone in the current line: the next test must overflow
        have hj : sjoin (st.2 ++ [x]) = word ++ ' ' :: x := by
          rw [hpos]; rfl
        have hgt : ¬ w (sjoin (st.2 ++ [x])) ≤ maxW := by
          rw [hj]
          intro hcon
          exact absurd (le_trans (Nat.lt_iff_add_one_le.mp hwide)
            (le_trans (hpre word x) hcon)) (by omega)
        have hc : st.2 ≠ [] := by rw [hpos]; simp
        rw [wrapStep_overflow w maxW st x hgt hc, hpos]
        exact Or.inl (List.mem_append.mpr (Or.inr (by simp [sjoin])))
    rcases h with h | h
    · rcases List.mem_cons.mp h with rfl | hmem
      · -- `word` is processed now: whatever the state, it becomes the
        -- current line by itself
        have hcur : (wrapStep w maxW st word).2 = [word] := by
          by_cases hc : st.2 = []
          · have hj : sjoin (st.2 ++ [word]) = word := by rw [hc]; rfl
            have : ¬ w (sjoin (st.2 ++ [word])) ≤ maxW := by rw [hj]; omega
            rw [wrapStep_overflow_nil w maxW st word this hc]
          · have hj : sjoin (st.2 ++ [word]) = sjoin st.2 ++ ' ' :: word :=
              sjoin_append_singleton st.2 word hc
            have : ¬ w (sjoin (st.2 ++ [word])) ≤ maxW := by
              rw [hj]
              have := hsuf (sjoin st.2) word
              omega
            rw [wrapStep_overflow w maxW st word this hc]
        exact ih _ (Or.inr (Or.inr hcur))
      · exact ih _ (Or.inl hmem)
    · exact ih _ (Or.inr (hkeep h))

/-! ### Claim theorems for the word-wrap routine -/

/-- C1.  For every quote text in which every single word's rendered width
(per the active font's bounding-box metric) is at most the usable width
(canvas width 1080 minus two margins of 80), `_wrap_text` returns lines that
each fit in that width, and splitting the returned lines on whitespace and
concatenating the words in order yields exactly the whitespace-delimited
word sequence of the input.  The hypothesis `hblank` records the
bounding-box property that a string with no words (whitespace only) has an
empty ink box, hence width 0. -/
theorem wrap_words_fit_and_preserved (w : List Char → Nat) (text : List Char)
    (hwords : ∀ word ∈ splitWords text, w word ≤ textAreaWidth)
    (hblank : ∀ s : List Char, splitWords s = [] → w s = 0) :
    (∀ line ∈ wrapText w textAreaWidth text, w line ≤ textAreaWidth)
    ∧ ((wrapText w textAreaWidth text).map splitWords).flatten = splitWords text := by
  by_cases hws : splitWords text = []
  · have hret : wrapText w textAreaWidth text = [text] := by
      simp [wrapText, hws]
    rw [hret, hws]
    constructor
    · intro line hline
      rw [List.mem_singleton.mp hline, hblank text hws]
      exact Nat.zero_le _
    · simp [hws]
  · set st := (splitWords text).foldl (wrapStep w textAreaWidth) ([], []) with hst
    have hcur : st.2 ≠ [] :=
      wrapFold_cur_ne w textAreaWidth (splitWords text) ([], []) (Or.inl hws)
    have hret : wrapText w textAreaWidth text = st.1 ++ [sjoin st.2] := by
      simp only [wrapText, ← hst, if_neg hcur]
      rw [if_neg (by simp)]
    obtain ⟨hfl, hok2⟩ := wrapFold_flatten w textAreaWidth (splitWords text) ([], [])
      (splitWords_ok text) (by simp)
    obtain ⟨hw1, hw2⟩ := wrapFold_width w textAreaWidth (splitWords text) ([], [])
      hwords (by simp) (Or.inl rfl)
    rw [hret]
    constructor
    · intro line hline
      rcases List.mem_append.mp hline with h | h
      · exact hw1 line h
      · rcases hw2 with h2 | h2
        · exact absurd h2 hcur
        · exact (List.mem_singleton.mp h) ▸ h2
    · rw [List.map_append, List.flatten_append]
      simp only [List.map_cons, List.map_nil, List.flatten_cons, List.flatten_nil,
        List.append_nil]
      rw [splitWords_sjoin st.2 hok2]
      simpa using hfl

/-- C2.  A word whose rendered width exceeds the usable width is placed by
`_wrap_text` alone on a line of its own (it appears whole as one of the
returned lines).  `hpre`/`hsuf` record the bounding-box property that
extending a string with a space and more text on either side never shrinks
its width. -/
theorem wrap_wide_word_alone (w : List Char → Nat) (text word : List Char)
    (hpre : ∀ s t : List Char, w s ≤ w (s ++ ' ' :: t))
    (hsuf : ∀ s t : List Char, w t ≤ w (s ++ ' ' :: t))
    (hmem : word ∈ splitWords text)
    (hwide : textAreaWidth < w word) :
    word ∈ wrapText w textAreaWidth text := by
  have hws : splitWords text ≠ [] := by
    intro h
    rw [h] at hmem
    simp at hmem
  set st := (splitWords text).foldl (wrapStep w textAreaWidth) ([], []) with hst
  have hcur : st.2 ≠ [] :=
    wrapFold_cur_ne w textAreaWidth (splitWords text) ([], []) (Or.inl hws)
  have hret : wrapText w textAreaWidth text = st.1 ++ [sjoin st.2] := by
    simp only [wrapText, ← hst, if_neg hcur]
    rw [if_neg (by simp)]
  have hpos := wrapFold_wide w textAreaWidth word hpre hsuf hwide
    (splitWords text) ([], []) (Or.inl hmem)
  rw [hret]
  rcases hpos with h | h
  · exact List.mem_append.mpr (Or.inl h)
  · refine List.mem_append.mpr (Or.inr ?_)
    rw [← hst] at h
    rw [h]
    simp [sjoin]

/-- C10.  `_wrap_text` always returns a non-empty list; on input with no
whitespace-delimited words it returns the single-element list holding the
original input string unchanged (line 101: `return lines if lines else
[text]`). -/
theorem wrap_text_nonempty (w : List Char → Nat) (maxW : Nat) (text : List Char) :
    wrapText w maxW text ≠ []
    ∧ (splitWords text = [] → wrapText w maxW text = [text]) := by
  by_cases hws : splitWords text = []
  · have hret : wrapText w maxW text = [text] := by simp [wrapText, hws]
    exact ⟨by simp [hret], fun _ => hret⟩
  · have hcur : ((splitWords text).foldl (wrapStep w maxW) ([], [])).2 ≠ [] :=
      wrapFold_cur_ne w maxW (splitWords text) ([], []) (Or.inl hws)
    have hret : wrapText w maxW text
        = ((splitWords text).foldl (wrapStep w maxW) ([], [])).1
          ++ [sjoin ((splitWords text).foldl (wrapStep w maxW) ([], [])).2] := by
      simp only [wrapText, if_neg hcur]
      rw [if_neg (by simp)]
    refine ⟨by simp [hret], fun h => absurd h hws⟩

/-! ### Witnesses for the wrap theorems

`wDemo` is a concrete width metric satisfying the font hypotheses: each
non-whitespace character is 10 units wide and whitespace contributes no
ink. -/

def wDemo (l : List Char) : Nat := 10 * l.countP (fun c => !c.isWhitespace)

theorem wDemo_blank (s : List Char) (h : splitWords s = []) : wDemo s = 0 := by
  have hall := splitWords_eq_nil s h
  have : s.countP (fun c => !c.isWhitespace) = 0 := by
    rw [List.countP_eq_zero]
    intro c hc
    simp [hall c hc]
  simp [wDemo, this]

theorem wDemo_mono_left (s t : List Char) : wDemo s ≤ wDemo (s ++ ' ' :: t) := by
  simp only [wDemo, List.countP_append, List.countP_cons]
  omega

theorem wDemo_mono_right (s t : List Char) : wDemo t ≤ wDemo (s ++ ' ' :: t) := by
  simp only [wDemo, List.countP_append, List.countP_cons]
  omega

/-- Witness for C1 at a concrete text and metric. -/
theorem wrap_words_fit_and_preserved_witness :
    (∀ word ∈ splitWords "philosophy is useful".data, wDemo word ≤ textAreaWidth)
    ∧ (∀ line ∈ wrapText wDemo textAreaWidth "philosophy is useful".data,
        wDemo line ≤ textAreaWidth)
    ∧ ((wrapText wDemo textAreaWidth "philosophy is useful".data).map splitWords).flatten
        = splitWords "philosophy is useful".data :=
  ⟨by decide,
    (wrap_words_fit_and_preserved wDemo "philosophy is useful".data (by decide) wDemo_blank).1,
    (wrap_words_fit_and_preserved wDemo "philosophy is useful".data (by decide) wDemo_blank).2⟩

set_option maxRecDepth 8000 in
/-- Witness for C2: a 100-character word is 1000 demo-units wide, beyond the
920-unit text area, and comes out as its own line. -/
theorem wrap_wide_word_alone_witness :
    textAreaWidth < wDemo (List.replicate 100 'x')
    ∧ List.replicate 100 'x'
        ∈ wrapText wDemo textAreaWidth ('a' :: ' ' :: List.replicate 100 'x') :=
  ⟨by decide,
    wrap_wide_word_alone wDemo ('a' :: ' ' :: List.replicate 100 'x')
      (List.replicate 100 'x') wDemo_mono_left wDemo_mono_right (by decide) (by decide)⟩

/-- Witness for C10 at a whitespace-only input. -/
theorem wrap_text_nonempty_witness :
    splitWords "   ".data = [] ∧ wrapText wDemo 10 "   ".data = ["   ".data] :=
  ⟨by decide, (wrap_text_nonempty wDemo 10 "   ".data).2 (by decide)⟩

/-! ### Result type for embedded Python calls

`ok` is a normal return, `raised` an exception carrying its message. -/

inductive PyResult (α : Type) where
  | ok : α → PyResult α
  | raised : List Char → PyResult α
deriving DecidableEq

def PyResult.isOk {α : Type} : PyResult α → Bool
  | .ok _ => true
  | .raised _ => false

/-! ### The save path of `generate_quote_card` (src/image_generator.py, lines 169-188)

The byte size produced by `img.save(output_path, 'JPEG', quality=q,
optimize=True)` is abstracted as a function `size : Nat → Nat` from the
quality level to the size of the written file. -/

/-- `max_size = 5 * 1024 * 1024` (line 179). -/
def MAX_FILE_SIZE : Nat := 5 * 1024 * 1024

/-- The fixed descending quality list of line 183. -/
def qualityLadder : List Nat := [85, 75, 65, 55]

/-- The `for q in [85, 75, 65, 55]` loop (lines 183-186): save at `q` and
break as soon as the file is within the ceiling.  `last` is the quality of
the file currently on disk. -/
def fitFrom (size : Nat → Nat) : List Nat → Nat → Nat
  | [], last => last
  | q :: qs, _ => if size q ≤ MAX_FILE_SIZE then q else fitFrom size qs q

/-- Quality level of the file on disk when `generate_quote_card` returns
(lines 173-186: first a save at 95, then the ladder only if it was too
big). -/
def finalQuality (size : Nat → Nat) : Nat :=
  if size 95 ≤ MAX_FILE_SIZE then 95 else fitFrom size qualityLadder 95

/-- The qualities at which `img.save` is invoked inside the ladder loop, in
order. -/
def saveAttemptsFrom (size : Nat → Nat) : List Nat → List Nat
  | [] => []
  | q :: qs => q :: (if size q ≤ MAX_FILE_SIZE then [] else saveAttemptsFrom size qs)

/-- All qualities at which `img.save` is invoked, in order (line 175 then
lines 183-186). -/
def saveAttempts (size : Nat → Nat) : List Nat :=
  if size 95 ≤ MAX_FILE_SIZE then [95] else 95 :: saveAttemptsFrom size qualityLadder

/-- Warnings emitted by the save path: lines 169-188 print or raise nothing
about the size budget, whatever the sizes are. -/
def renderWarnings (_size : Nat → Nat) : List (List Char) := []

/-- `generate_quote_card` ends with `return output_path` (line 188); the
quality loop raises nothing. -/
def renderReturn (_size : Nat → Nat) (outputPath : List Char) : List Char := outputPath

/-- A size profile on which every export exceeds the ceiling. -/
def size6MiB : Nat → Nat := fun _ => 6 * 1024 * 1024

/-- C3 counterexample: with every export at 6 MiB the renderer returns a
file over the 5 MiB ceiling and emits no warning, so "size within the
ceiling or a warning was emitted" fails. -/
theorem size_budget_counterexample :
    ¬ (size6MiB (finalQuality size6MiB) ≤ MAX_FILE_SIZE
        ∨ renderWarnings size6MiB ≠ []) := by decide

/-- C3 (amended): when `generate_quote_card` returns, either the file it
wrote is at most 5 MiB, or it is the quality-55 export, kept silently — the
save path has no warning mechanism at all. -/
theorem size_budget_amended (size : Nat → Nat) :
    size (finalQuality size) ≤ MAX_FILE_SIZE
    ∨ (finalQuality size = 55 ∧ renderWarnings size = []) := by
  by_cases h95 : size 95 ≤ MAX_FILE_SIZE
  · exact Or.inl (by simp [finalQuality, h95])
  · by_cases h85 : size 85 ≤ MAX_FILE_SIZE
    · exact Or.inl (by simp [finalQuality, h95, qualityLadder, fitFrom, h85])
    · by_cases h75 : size 75 ≤ MAX_FILE_SIZE
      · exact Or.inl (by simp [finalQuality, h95, qualityLadder, fitFrom, h85, h75])
      · by_cases h65 : size 65 ≤ MAX_FILE_SIZE
        · exact Or.inl
            (by simp [finalQuality, h95, qualityLadder, fitFrom, h85, h75, h65])
        · by_cases h55 : size 55 ≤ MAX_FILE_SIZE
          · exact Or.inl
              (by simp [finalQuality, h95, qualityLadder, fitFrom, h85, h75, h65, h55])
          · refine Or.inr ⟨?_, rfl⟩
            simp [finalQuality, h95, qualityLadder, fitFrom, h85, h75, h65, h55]

/-- C4.  `generate_quote_card` first exports at quality 95; exactly when
that file exceeds 5 MiB it re-exports at 85, 75, 65, 55 in order, stopping
at the first level within the ceiling; if even 55 exceeds it, the
quality-55 file stays on disk and the output path is returned without
error. -/
theorem quality_ladder_behavior (size : Nat → Nat) (path : List Char) :
    (size 95 ≤ MAX_FILE_SIZE → saveAttempts size = [95] ∧ finalQuality size = 95)
    ∧ (MAX_FILE_SIZE < size 95 →
        saveAttempts size
          = 95 :: (qualityLadder.takeWhile (fun q => !decide (size q ≤ MAX_FILE_SIZE))
              ++ (qualityLadder.find? (fun q => decide (size q ≤ MAX_FILE_SIZE))).toList)
        ∧ finalQuality size
          = ((qualityLadder.find? (fun q => decide (size q ≤ MAX_FILE_SIZE))).getD 55))
    ∧ ((∀ q ∈ 95 :: qualityLadder, MAX_FILE_SIZE < size q) →
        finalQuality size = 55)
    ∧ renderReturn size path = path := by
  refine ⟨fun h95 => by simp [saveAttempts, finalQuality, h95], fun h95 => ?_, fun hall => ?_,
    rfl⟩
  · have h95' : ¬ size 95 ≤ MAX_FILE_SIZE := by omega
    by_cases h85 : size 85 ≤ MAX_FILE_SIZE
    · constructor
      · simp [saveAttempts, h95', qualityLadder, saveAttemptsFrom, h85, List.takeWhile_cons]
      · simp [finalQuality, h95', qualityLadder, fitFrom, h85]
    · by_cases h75 : size 75 ≤ MAX_FILE_SIZE
      · constructor
        · simp [saveAttempts, h95', qualityLadder, saveAttemptsFrom, h85, h75,
            List.takeWhile_cons]
        · simp [finalQuality, h95', qualityLadder, fitFrom, h85, h75]
      · by_cases h65 : size 65 ≤ MAX_FILE_SIZE
        · constructor
          · simp [saveAttempts, h95', qualityLadder, saveAttemptsFrom, h85, h75, h65,
              List.takeWhile_cons]
          · simp [finalQuality, h95', qualityLadder, fitFrom, h85, h75, h65]
        · by_cases h55 : size 55 ≤ MAX_FILE_SIZE
          · constructor
            · simp [saveAttempts, h95', qualityLadder, saveAttemptsFrom, h85, h75, h65, h55,
                List.takeWhile_cons]
            · simp [finalQuality, h95', qualityLadder, fitFrom, h85, h75, h65, h55]
          · constructor
            · simp [saveAttempts, h95', qualityLadder, saveAttemptsFrom, h85, h75, h65, h55,
                List.takeWhile_cons]
            · simp [finalQuality, h95', qualityLadder, fitFrom, h85, h75, h65, h55]
  · have h95 : ¬ size 95 ≤ MAX_FILE_SIZE := by
      have := hall 95 (by simp)
      omega
    have h85 : ¬ size 85 ≤ MAX_FILE_SIZE := by
      have := hall 85 (by simp [qualityLadder])
      omega
    have h75 : ¬ size 75 ≤ MAX_FILE_SIZE := by
      have := hall 75 (by simp [qualityLadder])
      omega
    have h65 : ¬ size 65 ≤ MAX_FILE_SIZE := by
      have := hall 65 (by simp [qualityLadder])
      omega
    have h55 : ¬ size 55 ≤ MAX_FILE_SIZE := by
      have := hall 55 (by simp [qualityLadder])
      omega
    simp [finalQuality, h95, qualityLadder, fitFrom, h85, h75, h65, h55]

/-- Size profile for the C4 witness: 6 MiB at qualities 95 and 85, 4 MiB
below. -/
def sizeDemo : Nat → Nat := fun q => if 80 ≤ q then 6 * 1024 * 1024 else 4 * 1024 * 1024

/-- Witness for C4: two failures then success at 75. -/
theorem quality_ladder_behavior_witness :
    MAX_FILE_SIZE < sizeDemo 95
    ∧ saveAttempts sizeDemo = [95, 85, 75]
    ∧ finalQuality sizeDemo = 75 := by
  have h := (quality_ladder_behavior sizeDemo []).2.1 (by decide)
  exact ⟨by decide, h.1.trans (by decide), h.2.trans (by decide)⟩

/-! ### Output-path handling of `generate_quote_card` (src/image_generator.py, line 171)

`os.makedirs(os.path.dirname(output_path), exist_ok=True)` runs before
every save. -/

/-- Model of `posixpath.dirname`: everything before the final `/`; a
trailing run of slashes is removed unless the result is entirely slashes. -/
def pyDirname (p : List Char) : List Char :=
  let head := (p.reverse.dropWhile (· != '/')).reverse
  if head ≠ [] ∧ ¬ head.all (· == '/') then
    (head.reverse.dropWhile (· == '/')).reverse
  else head

/-- The exception text of CPython's `os.makedirs('', exist_ok=True)`. -/
def makedirsEmptyError : List Char :=
  "FileNotFoundError: [Errno 2] No such file or directory: ".data

/-- Model of `os.makedirs(name, exist_ok=True)` on a writable filesystem:
any missing directories of a non-empty path are created and the call
succeeds (also when the path already exists); the empty path raises
`FileNotFoundError`. -/
def pyMakedirs (dir : List Char) : PyResult Unit :=
  if dir = [] then PyResult.raised makedirsEmptyError else PyResult.ok ()

/-- The save step of `generate_quote_card` (lines 169-188): ensure the
parent directory exists, then write (overwriting any existing file) and
return the output path. -/
def generateQuoteCardSave (outputPath : List Char) (size : Nat → Nat) :
    PyResult (List Char) :=
  match pyMakedirs (pyDirname outputPath) with
  | PyResult.raised e => PyResult.raised e
  | PyResult.ok _ => PyResult.ok (renderReturn size outputPath)

/-- C9 (code bug): for a bare filename, `os.path.dirname` yields `''` and
`os.makedirs('', exist_ok=True)` raises `FileNotFoundError`, so
`generate_quote_card` raises from the directory-creation step even though
no directory needed creating; with a directory component present the same
call succeeds and returns the path. -/
theorem bare_filename_save_bug :
    pyDirname "quote_card.jpg".data = []
    ∧ generateQuoteCardSave "quote_card.jpg".data size6MiB
        = PyResult.raised makedirsEmptyError
    ∧ generateQuoteCardSave "/tmp/quote_card.jpg".data size6MiB
        = PyResult.ok "/tmp/quote_card.jpg".data := by decide

/-! ### JSON values

The responses the agent handles are flat JSON objects whose values are
strings (plus the other scalar literals `json.loads` can produce there).
An object is an association list of key/value pairs. -/

inductive JVal where
  | jstr : List Char → JVal
  | jint : Int → JVal
  | jtrue : JVal
  | jfalse : JVal
  | jnull : JVal
deriving DecidableEq

/-- Python `key in dict` for a parsed JSON object. -/
def hasKey (d : List (List Char × JVal)) (k : List Char) : Bool :=
  d.any (fun p => p.1 == k)

/-- Python `dict[key]` / `dict.get(key, default)` lookup. -/
def lookupKey (d : List (List Char × JVal)) (k : List Char) : Option JVal :=
  List.lookup k d

/-! ### Validation of the quote object (src/ai_engine.py, lines 74-82) -/

def missingFieldsMsg : List Char := "Missing required fields in AI response".data

/-- The post-parse validation and extraction of `generate_quote`:
`if not all(key in quote_data for key in ['quote', 'author', 'context'])`
raises (line 75-76); otherwise the result is built from `quote_data['quote']`,
`quote_data['author']` and `quote_data.get('context', '')` (lines 78-82). -/
def validateQuoteData (d : List (List Char × JVal)) : PyResult (JVal × JVal × JVal) :=
  if hasKey d "quote".data && hasKey d "author".data && hasKey d "context".data then
    PyResult.ok ((lookupKey d "quote".data).getD JVal.jnull,
      (lookupKey d "author".data).getD JVal.jnull,
      (lookupKey d "context".data).getD (JVal.jstr []))
  else
    PyResult.raised missingFieldsMsg

/-- A parsed response carrying `quote` and `author` but no `context`. -/
def quoteAuthorOnly : List (List Char × JVal) :=
  [("quote".data, JVal.jstr "q".data), ("author".data, JVal.jstr "a".data)]

/-- C5 (code bug): the validation of line 75 also demands `context`, so an
object that has both `quote` and `author` is rejected when `context` is
absent — although line 81 reads `context` with a default, which would make
it optional.  With `context` present the same object is accepted. -/
theorem context_required_bug :
    hasKey quoteAuthorOnly "quote".data = true
    ∧ hasKey quoteAuthorOnly "author".data = true
    ∧ validateQuoteData quoteAuthorOnly = PyResult.raised missingFieldsMsg
    ∧ validateQuoteData (quoteAuthorOnly ++ [("context".data, JVal.jstr "c".data)])
        = PyResult.ok (JVal.jstr "q".data, JVal.jstr "a".data, JVal.jstr "c".data) := by
  decide

/-! ### Credential handling (src/blotato_client.py lines 27-46, src/ai_engine.py lines 13-29) -/

/-- The single-quote character. -/
def squote : Char := Char.ofNat 39

/-- Python `str.strip(...)`: drop the characters satisfying `p` from both
ends. -/
def pyStripP (p : Char → Bool) (l : List Char) : List Char :=
  ((l.dropWhile p).reverse.dropWhile p).reverse

/-- `raw.strip().strip('"').strip("'")` of `BlotatoClient.__init__`
(lines 37-38). -/
def blotatoClean (l : List Char) : List Char :=
  pyStripP (· == squote) (pyStripP (· == '"') (pyStripP Char.isWhitespace l))

/-- Python `x or y` for optional strings: `x` unless it is `None` or
empty. -/
def pyOr (a b : Option (List Char)) : Option (List Char) :=
  match a with
  | some s => if s = [] then b else some s
  | none => b

def geminiKeyError : List Char :=
  "GEMINI_API_KEY must be provided or set as environment variable".data

def blotatoKeyError : List Char :=
  "BLOTATO_API_KEY must be provided or set as environment variable".data

def blotatoAccountError : List Char :=
  "BLOTATO_ACCOUNT_ID must be provided or set as environment variable".data

/-- `AIEngine.__init__` (src/ai_engine.py, lines 13-29): picks the argument
or the `GEMINI_API_KEY` environment value, raises when neither is set, and
hands the chosen value to the client exactly as supplied — the source
performs no stripping here.  The result is the key used. -/
def aiEngineInit (apiKey envKey : Option (List Char)) : PyResult (List Char) :=
  match pyOr apiKey envKey with
  | none => PyResult.raised geminiKeyError
  | some k => if k = [] then PyResult.raised geminiKeyError else PyResult.ok k

/-- `BlotatoClient.__init__` (src/blotato_client.py, lines 27-46): resolves
both credentials, raises on missing ones, cleans both with
`.strip().strip('"').strip("'")`, and builds the `Authorization` header from
the cleaned key (line 45).  Result: `(api_key, account_id, header value)`. -/
def blotatoInit (apiKey envKey accountId envAcc : Option (List Char)) :
    PyResult (List Char × List Char × List Char) :=
  match pyOr apiKey envKey with
  | none => PyResult.raised blotatoKeyError
  | some k =>
    if k = [] then PyResult.raised blotatoKeyError
    else
      match pyOr accountId envAcc with
      | none => PyResult.raised blotatoAccountError
      | some a =>
        if a = [] then PyResult.raised blotatoAccountError
        else PyResult.ok (blotatoClean k, blotatoClean a, "Bearer ".data ++ blotatoClean k)

/-- A credential with surrounding whitespace and quote characters. -/
def paddedKey : List Char := " \"KEY\" ".data

/-- C8 counterexample: the quote-generation credential is passed to the
Gemini client with its surrounding whitespace and quotes intact — it is not
stripped, while the Blotato cleaning of the same value would yield `KEY`. -/
theorem gemini_key_not_stripped :
    aiEngineInit none (some paddedKey) = PyResult.ok paddedKey
    ∧ paddedKey ≠ blotatoClean paddedKey
    ∧ blotatoClean paddedKey = "KEY".data := by decide

/-- Stripping characters satisfying `p` from both ends removes exactly the
surrounding padding when the payload's two end characters do not satisfy
`p`. -/
theorem pyStripP_sandwich (p : Char → Bool) (w1 w2 core : List Char)
    (hw1 : ∀ c ∈ w1, p c = true) (hw2 : ∀ c ∈ w2, p c = true)
    (hcore : core ≠ [])
    (hhead : ∀ c, core.head? = some c → p c = false)
    (hlast : ∀ c, core.getLast? = some c → p c = false) :
    pyStripP p (w1 ++ core ++ w2) = core := by
  have h1 : (w1 ++ core ++ w2).dropWhile p = core ++ w2 := by
    rw [List.append_assoc, List.dropWhile_append_of_pos hw1]
    cases hc : core with
    | nil => exact absurd hc hcore
    | cons c cs =>
      have hpc : p c = false := hhead c (by simp [hc])
      simp [List.dropWhile_cons, hpc]
  have h2 : (w2.reverse ++ core.reverse).dropWhile p = core.reverse := by
    rw [List.dropWhile_append_of_pos (by simpa using hw2)]
    cases hr : core.reverse with
    | nil => exact absurd (by simpa using hr) hcore
    | cons d ds =>
      have hd : core.getLast? = some d := by
        rw [← List.head?_reverse, hr]
        rfl
      have hpd : p d = false := hlast d hd
      simp [List.dropWhile_cons, hpd]
  unfold pyStripP
  rw [h1, List.reverse_append, h2, List.reverse_reverse]

/-- C8 (amended): the posting credential and destination-account identifier
are stripped of surrounding whitespace and quoting before use (the stored
values and the bearer header use the cleaned strings), whereas the
quote-generation credential is used exactly as supplied, unstripped. -/
theorem credential_stripping_amended
    (k a : List Char) (hk : k ≠ []) (ha : a ≠ [])
    (w1 w2 core : List Char)
    (hw1 : ∀ c ∈ w1, c.isWhitespace = true) (hw2 : ∀ c ∈ w2, c.isWhitespace = true)
    (hcore : core ≠ [])
    (hhead : ∀ c, core.head? = some c →
      c.isWhitespace = false ∧ c ≠ '"' ∧ c ≠ squote)
    (hlast : ∀ c, core.getLast? = some c →
      c.isWhitespace = false ∧ c ≠ '"' ∧ c ≠ squote) :
    blotatoInit (some k) none (some a) none
      = PyResult.ok (blotatoClean k, blotatoClean a, "Bearer ".data ++ blotatoClean k)
    ∧ blotatoClean (w1 ++ ('"' :: (core ++ ['"'])) ++ w2) = core
    ∧ blotatoClean (w1 ++ (squote :: (core ++ [squote])) ++ w2) = core
    ∧ blotatoClean (w1 ++ core ++ w2) = core
    ∧ aiEngineInit (some k) none = PyResult.ok k := by
  -- stripping with empty padding leaves a protected payload unchanged
  have hstrip_id : ∀ (q : Char → Bool) (x : List Char), x ≠ [] →
      (∀ c, x.head? = some c → q c = false) →
      (∀ c, x.getLast? = some c → q c = false) →
      pyStripP q x = x := by
    intro q x hx hh hl
    have := pyStripP_sandwich q [] [] x (by simp) (by simp) hx hh hl
    simpa using this
  have hne_dq : ∀ (x : List Char), x ≠ [] → ('"' :: (x ++ ['"'])) ≠ [] := by
    intro x _
    simp
  -- head and last of the double-quote-wrapped payload
  have hdq_head : ∀ (x : List Char), ('"' :: (x ++ ['"'])).head? = some '"' := by
    intro x
    rfl
  have hdq_last : ∀ (x : List Char), ('"' :: (x ++ ['"'])).getLast? = some '"' := by
    intro x
    rw [show ('"' :: (x ++ ['"'])) = ('"' :: x) ++ ['"'] by simp]
    exact List.getLast?_concat _
  have hsq_head : ∀ (x : List Char), (squote :: (x ++ [squote])).head? = some squote := by
    intro x
    rfl
  have hsq_last : ∀ (x : List Char), (squote :: (x ++ [squote])).getLast? = some squote := by
    intro x
    rw [show (squote :: (x ++ [squote])) = (squote :: x) ++ [squote] by simp]
    exact List.getLast?_concat _
  refine ⟨by simp [blotatoInit, pyOr, hk, ha], ?_, ?_, ?_, by simp [aiEngineInit, pyOr, hk]⟩
  · -- double-quote wrapping
    have s1 : pyStripP Char.isWhitespace (w1 ++ ('"' :: (core ++ ['"'])) ++ w2)
        = '"' :: (core ++ ['"']) := by
      refine pyStripP_sandwich _ _ _ _ hw1 hw2 (by simp) ?_ ?_
      · intro c hc
        rw [hdq_head] at hc
        cases hc
        decide
      · intro c hc
        rw [hdq_last] at hc
        cases hc
        decide
    have s2 : pyStripP (· == '"') ('"' :: (core ++ ['"'])) = core := by
      have := pyStripP_sandwich (· == '"') ['"'] ['"'] core (by simp) (by simp) hcore
        (fun c hc => by simpa using (hhead c hc).2.1)
        (fun c hc => by simpa using (hlast c hc).2.1)
      simpa using this
    have s3 : pyStripP (· == squote) core = core :=
      hstrip_id _ core hcore
        (fun c hc => by simpa using (hhead c hc).2.2)
        (fun c hc => by simpa using (hlast c hc).2.2)
    rw [blotatoClean, s1, s2, s3]
  · -- single-quote wrapping
    have s1 : pyStripP Char.isWhitespace (w1 ++ (squote :: (core ++ [squote])) ++ w2)
        = squote :: (core ++ [squote]) := by
      refine pyStripP_sandwich _ _ _ _ hw1 hw2 (by simp) ?_ ?_
      · intro c hc
        rw [hsq_head] at hc
        cases hc
        decide
      · intro c hc
        rw [hsq_last] at hc
        cases hc
        decide
    have s2 : pyStripP (· == '"') (squote :: (core ++ [squote]))
        = squote :: (core ++ [squote]) := by
      refine hstrip_id _ _ (by simp) ?_ ?_
      · intro c hc
        rw [hsq_head] at hc
        cases hc
        decide
      · intro c hc
        rw [hsq_last] at hc
        cases hc
        decide
    have s3 : pyStripP (· == squote) (squote :: (core ++ [squote])) = core := by
      have := pyStripP_sandwich (· == squote) [squote] [squote] core (by simp) (by simp) hcore
        (fun c hc => by simpa using (hhead c hc).2.2)
        (fun c hc => by simpa using (hlast c hc).2.2)
      simpa using this
    rw [blotatoClean, s1, s2, s3]
  · -- bare padding
    have s1 : pyStripP Char.isWhitespace (w1 ++ core ++ w2) = core := by
      refine pyStripP_sandwich _ _ _ _ hw1 hw2 hcore
        (fun c hc => (hhead c hc).1) (fun c hc => (hlast c hc).1)
    have s2 : pyStripP (· == '"') core = core :=
      hstrip_id _ core hcore
        (fun c hc => by simpa using (hhead c hc).2.1)
        (fun c hc => by simpa using (hlast c hc).2.1)
    have s3 : pyStripP (· == squote) core = core :=
      hstrip_id _ core hcore
        (fun c hc => by simpa using (hhead c hc).2.2)
        (fun c hc => by simpa using (hlast c hc).2.2)
    rw [blotatoClean, s1, s2, s3]

/-- Witness for the amended C8 at concrete credentials. -/
theorem credential_stripping_amended_witness :
    blotatoInit (some " \"KEY\" ".data) none (some " 123 ".data) none
      = PyResult.ok ("KEY".data, "123".data, "Bearer KEY".data)
    ∧ aiEngineInit (some " \"KEY\" ".data) none = PyResult.ok " \"KEY\" ".data := by
  have h := credential_stripping_amended " \"KEY\" ".data " 123 ".data
    (by decide) (by decide) " ".data " ".data "KEY".data
    (by decide) (by decide) (by decide) (by decide) (by decide)
  exact ⟨h.1.trans (by decide), h.2.2.2.2⟩

/-! ### `publish_post` and the 401 branch (src/blotato_client.py, lines 142-178)

`status` and `respText` stand for `response.status_code` and
`response.text`; `accountId` and `apiKey` are the (already cleaned) stored
credentials, re-stripped at lines 144-145 before use. -/

def authMsgA : List Char :=
  "Authentication failed (401). Please verify your BLOTATO_API_KEY and BLOTATO_ACCOUNT_ID.\nAccount ID used: ".data

def authMsgB : List Char := "\nAPI Key length: ".data

def authMsgC : List Char := "\nResponse: ".data

def authMsgD : List Char :=
  "\n\nTip: Make sure your API key and account ID are correct in the .env file.\nCheck your Blotato dashboard: https://blotato.com".data

/-- The diagnostic message built at lines 159-164: fixed text, the account
id, the decimal length of the API key, and the raw response body — never
the key itself. -/
def authFailMsg (accountId apiKey respText : List Char) : List Char :=
  authMsgA ++ accountId ++ authMsgB ++ (Nat.repr apiKey.length).data
    ++ authMsgC ++ respText ++ authMsgD

/-- Outcome of `publish_post` as a function of the HTTP response
(lines 155-178): status 401 raises the authentication diagnostic; any other
4xx/5xx status makes `response.raise_for_status()` raise, re-raised as a
generic HTTP error whose message embeds the response body (the
`str(HTTPError)` prefix is abstracted); otherwise the response body is
returned (as `response.json()` input). -/
def publishPostOutcome (status : Nat) (respText accountId apiKey : List Char) :
    PyResult (List Char) :=
  if status = 401 then
    PyResult.raised (authFailMsg accountId apiKey respText)
  else if 400 ≤ status then
    PyResult.raised ("HTTP error publishing post - Response: ".data ++ respText)
  else
    PyResult.ok respText

/-- C7 counterexample: with the one-character credential `1` the raised
message does contain the credential as a substring (it already occurs in
the fixed text `(401)`), so "the credential value never appears as a
substring of the message" is false as a universal statement. -/
theorem auth_message_counterexample :
    publishPostOutcome 401 [] "acc".data "1".data
      = PyResult.raised (authFailMsg "acc".data "1".data [])
    ∧ "1".data <:+: authFailMsg "acc".data "1".data [] := by
  constructor
  · rfl
  · decide

/-- C7 (amended): on HTTP 401 the publish operation raises an error whose
message contains the account identifier, the decimal length of the
credential, and the raw response body, and the message is built without the
credential: credentials of equal length produce the identical message, so
the credential value appears only when it coincides with text from the
fixed template, the account id, the length digits, or the response body. -/
theorem auth_error_amended (status : Nat) (acc key body : List Char)
    (h401 : status = 401) :
    publishPostOutcome status body acc key = PyResult.raised (authFailMsg acc key body)
    ∧ acc <:+: authFailMsg acc key body
    ∧ (Nat.repr key.length).data <:+: authFailMsg acc key body
    ∧ body <:+: authFailMsg acc key body
    ∧ ∀ key2 : List Char, key2.length = key.length →
        authFailMsg acc key2 body = authFailMsg acc key body := by
  subst h401
  refine ⟨by simp [publishPostOutcome], ?_, ?_, ?_, ?_⟩
  · exact ⟨authMsgA,
      authMsgB ++ (Nat.repr key.length).data ++ authMsgC ++ body ++ authMsgD,
      by simp [authFailMsg, List.append_assoc]⟩
  · exact ⟨authMsgA ++ acc ++ authMsgB, authMsgC ++ body ++ authMsgD,
      by simp [authFailMsg, List.append_assoc]⟩
  · exact ⟨authMsgA ++ acc ++ authMsgB ++ (Nat.repr key.length).data ++ authMsgC,
      authMsgD, by simp [authFailMsg, List.append_assoc]⟩
  · intro key2 hlen
    simp [authFailMsg, hlen]

/-- Witness for the amended C7 at concrete data: two distinct nine-character
credentials yield the same diagnostic. -/
theorem auth_error_amended_witness :
    publishPostOutcome 401 "bad token".data "acc-77".data "SECRETKEY".data
      = PyResult.raised (authFailMsg "acc-77".data "SECRETKEY".data "bad token".data)
    ∧ "acc-77".data <:+: authFailMsg "acc-77".data "SECRETKEY".data "bad token".data
    ∧ authFailMsg "acc-77".data "XYZWUV123".data "bad token".data
        = authFailMsg "acc-77".data "SECRETKEY".data "bad token".data := by
  have h := auth_error_amended 401 "acc-77".data "SECRETKEY".data "bad token".data rfl
  exact ⟨h.1, h.2.1, h.2.2.2.2 "XYZWUV123".data (by decide)⟩

/-! ### Fence stripping in `generate_quote` (src/ai_engine.py, lines 64-69)

The response text is `.strip()`ed, then `re.sub(r'```json\s*', '', text)`,
then `re.sub(r'```\s*', '', text)`, then `.strip()`ed again.  `subPat pat`
models `re.sub` for the literal pattern `pat` followed by `\s*`: scan left
to right, delete every occurrence of `pat` together with the maximal
whitespace run after it, resuming after the deleted match
(non-overlapping).  The scan is implemented with a character-count fuel so
that it stays structurally recursive. -/

def fenceJson : List Char := "```json".data

def fence : List Char := "```".data

def subPatF (pat : List Char) : Nat → List Char → List Char
  | 0, l => l
  | _ + 1, [] => []
  | f + 1, c :: cs =>
    if pat ≠ [] ∧ pat.isPrefixOf (c :: cs) then
      subPatF pat f (((c :: cs).drop pat.length).dropWhile Char.isWhitespace)
    else
      c :: subPatF pat f cs

/-- `re.sub(pat + r'\s*', '', l)` for a non-empty literal `pat`. -/
def subPat (pat l : List Char) : List Char :=
  subPatF pat (l.length + 1) l

theorem dropWhile_length_le (p : Char → Bool) (l : List Char) :
    (l.dropWhile p).length ≤ l.length :=
  (List.dropWhile_suffix p).isInfix.length_le

theorem subPatF_fuel (pat : List Char) :
    ∀ (f1 f2 : Nat) (l : List Char), l.length < f1 → l.length < f2 →
      subPatF pat f1 l = subPatF pat f2 l := by
  intro f1
  induction f1 with
  | zero => intro f2 l h1 _; omega
  | succ f ih =>
    intro f2 l h1 h2
    cases f2 with
    | zero => omega
    | succ g =>
      cases l with
      | nil => rfl
      | cons c cs =>
        by_cases hm : pat ≠ [] ∧ pat.isPrefixOf (c :: cs)
        · have hpat : 1 ≤ pat.length := by
            cases hp : pat with
            | nil => exact absurd hp hm.1
            | cons _ _ => simp
          have hlen : (((c :: cs).drop pat.length).dropWhile Char.isWhitespace).length
              ≤ cs.length := by
            have hd : ((c :: cs).drop pat.length).length = cs.length + 1 - pat.length := by
              simp [List.length_drop]
            have := dropWhile_length_le Char.isWhitespace ((c :: cs).drop pat.length)
            omega
          show subPatF pat (f + 1) (c :: cs) = subPatF pat (g + 1) (c :: cs)
          simp only [subPatF, if_pos hm]
          exact ih g _ (by simp at h1; omega) (by simp at h2; omega)
        · show subPatF pat (f + 1) (c :: cs) = subPatF pat (g + 1) (c :: cs)
          simp only [subPatF, if_neg hm]
          exact congrArg (c :: ·) (ih g cs (by simp at h1; omega) (by simp at h2; omega))

/-- One-step unfolding of `subPat` at a cons cell. -/
theorem subPat_cons (pat : List Char) (c : Char) (cs : List Char) :
    subPat pat (c :: cs)
      = if pat ≠ [] ∧ pat.isPrefixOf (c :: cs) then
          subPat pat (((c :: cs).drop pat.length).dropWhile Char.isWhitespace)
        else c :: subPat pat cs := by
  by_cases hm : pat ≠ [] ∧ pat.isPrefixOf (c :: cs)
  · rw [if_pos hm]
    have hpat : 1 ≤ pat.length := by
      cases hp : pat with
      | nil => exact absurd hp hm.1
      | cons _ _ => simp
    have hlen : (((c :: cs).drop pat.length).dropWhile Char.isWhitespace).length
        ≤ cs.length := by
      have hd : ((c :: cs).drop pat.length).length = cs.length + 1 - pat.length := by
        simp [List.length_drop]
      have := dropWhile_length_le Char.isWhitespace ((c :: cs).drop pat.length)
      omega
    show subPatF pat ((c :: cs).length + 1) (c :: cs) = _
    simp only [subPatF, List.length_cons, if_pos hm]
    exact subPatF_fuel pat _ _ _ (by omega) (by omega)
  · rw [if_neg hm]
    show subPatF pat ((c :: cs).length + 1) (c :: cs) = _
    simp only [subPatF, List.length_cons, if_neg hm]
    rfl

/-- A text containing no occurrence of the pattern is left unchanged. -/
theorem subPat_eq_self (pat : List Char) :
    ∀ l : List Char, ¬ pat <:+: l → subPat pat l = l := by
  intro l
  induction l with
  | nil => intro _; rfl
  | cons c cs ih =>
    intro hno
    rw [subPat_cons]
    have hm : ¬ (pat ≠ [] ∧ pat.isPrefixOf (c :: cs)) := by
      rintro ⟨_, hpre⟩
      exact hno (List.isPrefixOf_iff_prefix.mp hpre).isInfix
    rw [if_neg hm, ih (fun hinf => hno (List.infix_cons hinf))]

/-- A match at the head consumes the pattern and the following whitespace
run. -/
theorem subPat_head_match (pat rest : List Char) (hpat : pat ≠ []) :
    subPat pat (pat ++ rest) = subPat pat (rest.dropWhile Char.isWhitespace) := by
  obtain ⟨p, ps, hp⟩ : ∃ p ps, pat = p :: ps := by
    cases pat with
    | nil => exact absurd rfl hpat
    | cons p ps => exact ⟨p, ps, rfl⟩
  have hcons : pat ++ rest = p :: (ps ++ rest) := by rw [hp]; rfl
  rw [hcons, subPat_cons]
  have hm : pat ≠ [] ∧ pat.isPrefixOf (p :: (ps ++ rest)) := by
    refine ⟨hpat, ?_⟩
    rw [← hcons]
    exact List.isPrefixOf_iff_prefix.mpr (List.prefix_append _ _)
  rw [if_pos hm]
  congr 1
  rw [← hcons, List.drop_left]

/-- When no match can start inside `xs` (also not one overlapping into
`rest`), the scan passes over `xs` untouched. -/
theorem subPat_append_left (pat : List Char) :
    ∀ (xs rest : List Char),
      (∀ u, u <:+ xs → u ≠ [] → ¬ pat.isPrefixOf (u ++ rest)) →
      subPat pat (xs ++ rest) = xs ++ subPat pat rest := by
  intro xs
  induction xs with
  | nil => intro rest _; simp
  | cons c cs ih =>
    intro rest hno
    rw [show (c :: cs) ++ rest = c :: (cs ++ rest) by rfl, subPat_cons]
    have hm : ¬ (pat ≠ [] ∧ pat.isPrefixOf (c :: (cs ++ rest))) := by
      rintro ⟨_, hpre⟩
      exact hno (c :: cs) List.suffix_rfl (by simp) hpre
    rw [if_neg hm]
    rw [ih rest (fun u hu hne => hno u (List.suffix_cons_iff.mpr (Or.inr hu)) hne)]
    rfl

/-- A pattern free of newline characters cannot be a prefix across a
newline: it must fit before it. -/
theorem prefix_through_newline (pat : List Char) (hnl : Char.ofNat 10 ∉ pat) :
    ∀ xs ys : List Char, pat <+: (xs ++ Char.ofNat 10 :: ys) → pat <+: xs := by
  induction pat with
  | nil => intro xs ys _; simp
  | cons p ps ih =>
    intro xs ys h
    cases xs with
    | nil =>
      obtain ⟨t, ht⟩ := h
      have : p = Char.ofNat 10 := by
        have := congrArg List.head? ht
        simpa using this
      exact absurd (this ▸ List.mem_cons_self p ps) hnl
    | cons x xr =>
      obtain ⟨t, ht⟩ := h
      have hpx : p = x := by
        have := congrArg List.head? ht
        simpa using this
      have htail : ps ++ t = xr ++ Char.ofNat 10 :: ys := by
        have := congrArg List.tail ht
        simpa using this
      have := ih (fun hm => hnl (List.mem_cons_of_mem p hm)) xr ys ⟨t, htail⟩
      obtain ⟨t2, ht2⟩ := this
      exact ⟨t2, by rw [hpx]; simp [ht2]⟩

/-- A pattern free of newline characters occurring in `xs ++ '\n' :: ys`
occurs wholly inside `xs` or wholly inside `ys`. -/
theorem infix_through_newline (pat : List Char) (hnl : Char.ofNat 10 ∉ pat) :
    ∀ xs ys : List Char, pat <:+: (xs ++ Char.ofNat 10 :: ys) →
      pat <:+: xs ∨ pat <:+: ys := by
  intro xs
  induction xs with
  | nil =>
    intro ys h
    rcases List.infix_cons_iff.mp (by simpa using h) with hp | hi
    · cases hpat : pat with
      | nil => exact Or.inl (by simp)
      | cons p ps =>
        obtain ⟨t, ht⟩ := hp
        have : p = Char.ofNat 10 := by
          have := congrArg List.head? ht
          simpa [hpat] using this
        rw [hpat] at hnl
        exact absurd (this ▸ List.mem_cons_self p ps) hnl
    · exact Or.inr hi
  | cons x xr ih =>
    intro ys h
    rcases List.infix_cons_iff.mp (by simpa using h) with hp | hi
    · exact Or.inl (prefix_through_newline pat hnl (x :: xr) ys (by simpa using hp)).isInfix
    · rcases ih ys hi with h1 | h1
      · exact Or.inl (List.infix_cons h1)
      · exact Or.inr h1

/-- Suffixes of `xs ++ [a]` are empty or end with `a`. -/
theorem suffix_append_singleton {u xs : List Char} {a : Char}
    (h : u <:+ xs ++ [a]) : u = [] ∨ ∃ v, v <:+ xs ∧ u = v ++ [a] := by
  rcases List.eq_nil_or_concat u with rfl | ⟨us, b, rfl⟩
  · exact Or.inl rfl
  · right
    obtain ⟨p, hp⟩ := h
    rw [List.concat_eq_append, ← List.append_assoc] at hp
    obtain ⟨h1, h2⟩ := List.append_inj' hp (by simp)
    have hba : b = a := by simpa using h2
    exact ⟨us, ⟨p, h1⟩, by rw [List.concat_eq_append, hba]⟩

/-! ### Python `str.strip()` (src/ai_engine.py, lines 64 and 69) -/

def trimL (l : List Char) : List Char := l.dropWhile Char.isWhitespace

def trimR (l : List Char) : List Char := (l.reverse.dropWhile Char.isWhitespace).reverse

/-- `text.strip()`. -/
def stripWS (l : List Char) : List Char := trimR (trimL l)

theorem dropWhile_head_false {p : Char → Bool} :
    ∀ {l : List Char} {c : Char} {cs : List Char},
      l.dropWhile p = c :: cs → p c = false := by
  intro l
  induction l with
  | nil => intro c cs h; simp at h
  | cons x xr ih =>
    intro c cs h
    by_cases hx : p x
    · exact ih (by simpa [List.dropWhile_cons, hx] using h)
    · have hx' : p x = false := by simpa using hx
      rw [List.dropWhile_cons, hx'] at h
      simp only [Bool.false_eq_true, if_false, List.cons.injEq] at h
      exact h.1 ▸ hx'

theorem dropWhile_idem (p : Char → Bool) (l : List Char) :
    (l.dropWhile p).dropWhile p = l.dropWhile p := by
  cases h : l.dropWhile p with
  | nil => simp
  | cons c cs =>
    rw [List.dropWhile_cons, dropWhile_head_false h]
    simp

theorem dropWhile_append_single {p : Char → Bool} {c : Char}
    (hc : p c = false) (zs : List Char) :
    (zs ++ [c]).dropWhile p = zs.dropWhile p ++ [c] := by
  induction zs with
  | nil => simp [List.dropWhile_cons, hc]
  | cons z zr ih =>
    by_cases hz : p z
    · simp [List.dropWhile_cons, hz, ih]
    · have hz' : p z = false := by simpa using hz
      simp [List.dropWhile_cons, hz']

theorem trimR_trimR (l : List Char) : trimR (trimR l) = trimR l := by
  simp [trimR, List.reverse_reverse, dropWhile_idem]

theorem trimL_trimR (l : List Char) (hl : trimL l = l) : trimL (trimR l) = trimR l := by
  cases l with
  | nil => rfl
  | cons c cs =>
    have hc : Char.isWhitespace c = false := by
      by_cases h : Char.isWhitespace c
      · exfalso
        rw [trimL, List.dropWhile_cons, h] at hl
        simp only [if_true] at hl
        have h1 : (cs.dropWhile Char.isWhitespace).length ≤ cs.length :=
          dropWhile_length_le _ cs
        have h2 := congrArg List.length hl
        simp at h2
        omega
      · simpa using h
    rw [trimR, show (c :: cs).reverse = cs.reverse ++ [c] by simp,
      dropWhile_append_single hc, List.reverse_append]
    simp [trimL, List.dropWhile_cons, hc]

theorem stripWS_idem (l : List Char) : stripWS (stripWS l) = stripWS l := by
  unfold stripWS
  rw [trimL_trimR (trimL l) (dropWhile_idem _ l), trimR_trimR]

/-- Left padding that survives `trimL` untouched (non-empty, leading char
not whitespace) shields the whole append. -/
theorem trimL_append_left (xs ys : List Char) (h : trimL xs = xs) (hne : xs ≠ []) :
    trimL (xs ++ ys) = xs ++ ys := by
  cases xs with
  | nil => exact absurd rfl hne
  | cons c cs =>
    have hc : Char.isWhitespace c = false := by
      by_cases hcc : Char.isWhitespace c
      · exfalso
        rw [trimL, List.dropWhile_cons, hcc] at h
        simp only [if_true] at h
        have h1 : (cs.dropWhile Char.isWhitespace).length ≤ cs.length :=
          dropWhile_length_le _ cs
        have h2 := congrArg List.length h
        simp at h2
        omega
      · simpa using hcc
    rw [trimL, show (c :: cs) ++ ys = c :: (cs ++ ys) by rfl, List.dropWhile_cons]
    simp [hc]

/-- Right padding that survives `trimR` untouched shields the whole
append. -/
theorem trimR_append_right (xs ys : List Char) (h : trimR ys = ys) (hne : ys ≠ []) :
    trimR (xs ++ ys) = xs ++ ys := by
  have hrev : ys.reverse.dropWhile Char.isWhitespace = ys.reverse := by
    have := congrArg List.reverse h
    rwa [trimR, List.reverse_reverse] at this
  have hrevne : ¬ (ys.reverse.dropWhile Char.isWhitespace).isEmpty = true := by
    rw [hrev]
    simpa [List.isEmpty_iff] using hne
  rw [trimR, List.reverse_append, List.dropWhile_append, if_neg hrevne, hrev,
    List.reverse_append, List.reverse_reverse, List.reverse_reverse]

/-- The full response clean-up of `generate_quote` (src/ai_engine.py,
lines 64-69): `response.text.strip()`, then the two `re.sub` fence
removals, then a final `.strip()`. -/
def cleanResponse (l : List Char) : List Char :=
  stripWS (subPat fence (subPat fenceJson (stripWS l)))

/-- The C6 scenario fixture: a response body wrapped in markdown code
fences (a leading ```` ```json ```` marker and a trailing ```` ``` ````
marker on their own lines; `Char.ofNat 10` is the newline). -/
def wrapFences (t : List Char) : List Char :=
  fenceJson ++ Char.ofNat 10 :: (t ++ Char.ofNat 10 :: fence)

/-! ### A model of `json.loads` on the fragment the agent exchanges

Top-level JSON objects with string keys and scalar values: strings with
the basic escapes (`\" \\ \/ \n \t \r \b \f`; `\uXXXX` is outside the
fragment), integers, `true`, `false`, `null`.  Surrounding whitespace is
ignored; leftover non-whitespace input is a parse error. -/

def unescape : Char → Option Char
  | '"' => some '"'
  | '\\' => some '\\'
  | '/' => some '/'
  | 'n' => some (Char.ofNat 10)
  | 't' => some (Char.ofNat 9)
  | 'r' => some (Char.ofNat 13)
  | 'b' => some (Char.ofNat 8)
  | 'f' => some (Char.ofNat 12)
  | _ => none

/-- Body of a JSON string, after the opening quote; returns the decoded
content and the input after the closing quote. -/
def parseStringBody : Nat → List Char → Option (List Char × List Char)
  | 0, _ => none
  | _ + 1, [] => none
  | f + 1, c :: cs =>
    if c = '"' then some ([], cs)
    else if c = '\\' then
      match cs with
      | [] => none
      | e :: cs2 =>
        match unescape e with
        | none => none
        | some d =>
          match parseStringBody f cs2 with
          | none => none
          | some (s, rest) => some (d :: s, rest)
    else
      match parseStringBody f cs with
      | none => none
      | some (s, rest) => some (c :: s, rest)

def digitsToNat (ds : List Char) : Nat :=
  ds.foldl (fun n c => 10 * n + (c.toNat - 48)) 0

def parseIntToken (l : List Char) : Option (JVal × List Char) :=
  match l with
  | '-' :: r =>
    if (r.takeWhile (·.isDigit)) = [] then none
    else some (JVal.jint (-(digitsToNat (r.takeWhile (·.isDigit)) : Int)),
      r.dropWhile (·.isDigit))
  | _ =>
    if (l.takeWhile (·.isDigit)) = [] then none
    else some (JVal.jint (digitsToNat (l.takeWhile (·.isDigit))),
      l.dropWhile (·.isDigit))

def parseScalar (l : List Char) : Option (JVal × List Char) :=
  match l with
  | '"' :: r =>
    match parseStringBody (r.length + 1) r with
    | none => none
    | some (s, rest) => some (JVal.jstr s, rest)
  | _ =>
    if "true".data.isPrefixOf l then some (JVal.jtrue, l.drop 4)
    else if "false".data.isPrefixOf l then some (JVal.jfalse, l.drop 5)
    else if "null".data.isPrefixOf l then some (JVal.jnull, l.drop 4)
    else parseIntToken l

def skipWS (l : List Char) : List Char := l.dropWhile Char.isWhitespace

/-- Members of an object after its `{`, fueled by the member count bound. -/
def parseMembers : Nat → List Char → Option (List (List Char × JVal) × List Char)
  | 0, _ => none
  | f + 1, l =>
    match skipWS l with
    | '"' :: r =>
      match parseStringBody (r.length + 1) r with
      | none => none
      | some (key, rest1) =>
        match skipWS rest1 with
        | ':' :: rest2 =>
          match parseScalar (skipWS rest2) with
          | none => none
          | some (v, rest3) =>
            match skipWS rest3 with
            | ',' :: rest4 =>
              match parseMembers f rest4 with
              | none => none
              | some (ms, r5) => some ((key, v) :: ms, r5)
            | '}' :: rest4 => some ([(key, v)], rest4)
            | _ => none
        | _ => none
    | _ => none

def parseObj (l : List Char) : Option (List (List Char × JVal) × List Char) :=
  match skipWS l with
  | '{' :: r =>
    match skipWS r with
    | '}' :: rest => some ([], rest)
    | _ => parseMembers (r.length + 1) r
  | _ => none

/-- `json.loads` on the fragment: parse a top-level object, allow
surrounding whitespace, reject leftover input. -/
def jsonParse (l : List Char) : Option (List (List Char × JVal)) :=
  match parseObj (stripWS l) with
  | some (o, rest) => if rest.dropWhile Char.isWhitespace = [] then some o else none
  | none => none

theorem jsonParse_stripWS (l : List Char) : jsonParse (stripWS l) = jsonParse l := by
  unfold jsonParse
  rw [stripWS_idem]

theorem jsonParse_trimL_ne (l : List Char) (o : List (List Char × JVal))
    (h : jsonParse l = some o) : trimL l ≠ [] := by
  intro hnil
  have hstrip : stripWS l = [] := by rw [stripWS, hnil]; rfl
  rw [jsonParse, hstrip] at h
  simp [parseObj, skipWS] at h

/-- The fence-stripping pipeline applied to a wrapped response reduces to
stripping the response itself, provided the response contains some
non-whitespace text and no fence marker of its own. -/
theorem cleanResponse_wrapFences (t : List Char)
    (hne : trimL t ≠ []) (hf : ¬ fence <:+: t) :
    cleanResponse (wrapFences t) = stripWS t := by
  have hwsnl : (Char.ofNat 10).isWhitespace = true := by decide
  have hinfix_t' : ∀ u : List Char, u <:+: trimL t → u <:+: t :=
    fun u hu => hu.trans (List.dropWhile_suffix _).isInfix
  -- the initial strip leaves the wrapped text unchanged
  have hstrip0 : stripWS (wrapFences t) = wrapFences t := by
    have hL : trimL (wrapFences t) = wrapFences t :=
      trimL_append_left fenceJson _ (by decide) (by decide)
    have hshape : wrapFences t
        = (fenceJson ++ Char.ofNat 10 :: t ++ [Char.ofNat 10]) ++ fence := by
      simp [wrapFences]
    have hR : trimR (wrapFences t) = wrapFences t := by
      rw [hshape, trimR_append_right _ fence (by decide) (by decide)]
    rw [stripWS, hL, hR]
  -- first substitution: the leading ```json marker and the newline go away
  have hstepA : subPat fenceJson (wrapFences t) = trimL t ++ Char.ofNat 10 :: fence := by
    have h1 : subPat fenceJson (wrapFences t)
        = subPat fenceJson ((Char.ofNat 10 :: (t ++ Char.ofNat 10 :: fence)).dropWhile
            Char.isWhitespace) :=
      subPat_head_match fenceJson _ (by decide)
    have h2 : (Char.ofNat 10 :: (t ++ Char.ofNat 10 :: fence)).dropWhile Char.isWhitespace
        = trimL t ++ Char.ofNat 10 :: fence := by
      rw [List.dropWhile_cons_of_pos (by simp [hwsnl]), List.dropWhile_append]
      rw [if_neg (show ¬ (t.dropWhile Char.isWhitespace).isEmpty = true by
        rw [List.isEmpty_iff]; exact hne)]
      rfl
    have h3 : ¬ fenceJson <:+: (trimL t ++ Char.ofNat 10 :: fence) := by
      intro hinf
      rcases infix_through_newline fenceJson (by decide) (trimL t) fence hinf with h | h
      · have hpre : fence <+: fenceJson := List.isPrefixOf_iff_prefix.mp (by decide)
        exact hf (hinfix_t' fence (hpre.isInfix.trans h))
      · have h7 : fenceJson.length = 7 := by decide
        have h3l : fence.length = 3 := by decide
        have := h.length_le
        omega
    rw [h1, h2, subPat_eq_self fenceJson _ h3]
  -- second substitution: the trailing ``` marker goes away
  have hstepB : subPat fence (trimL t ++ Char.ofNat 10 :: fence)
      = trimL t ++ [Char.ofNat 10] := by
    have hsh : trimL t ++ Char.ofNat 10 :: fence
        = (trimL t ++ [Char.ofNat 10]) ++ fence := by simp
    have hcond : ∀ u, u <:+ (trimL t ++ [Char.ofNat 10]) → u ≠ [] →
        ¬ fence.isPrefixOf (u ++ fence) := by
      intro u hu hune hpre
      rcases suffix_append_singleton hu with rfl | ⟨v, hv, rfl⟩
      · exact hune rfl
      · have hp : fence <+: (v ++ Char.ofNat 10 :: fence) := by
          have := List.isPrefixOf_iff_prefix.mp hpre
          simpa [List.append_assoc] using this
        have hv2 : fence <+: v := prefix_through_newline fence (by decide) v fence hp
        exact hf (hinfix_t' fence (hv2.isInfix.trans hv.isInfix))
    have hend : subPat fence fence = [] := by
      have := subPat_head_match fence [] (by decide)
      simpa using this
    rw [hsh, subPat_append_left fence _ fence hcond, hend, List.append_nil]
  -- the final strip turns the leftovers into the stripped response
  have hstepC : stripWS (trimL t ++ [Char.ofNat 10]) = stripWS t := by
    have hL : trimL (trimL t ++ [Char.ofNat 10]) = trimL t ++ [Char.ofNat 10] :=
      trimL_append_left _ _ (dropWhile_idem _ t) hne
    have hR : trimR (trimL t ++ [Char.ofNat 10]) = trimR (trimL t) := by
      rw [trimR, List.reverse_append]
      simp only [List.reverse_cons, List.reverse_nil, List.nil_append, List.singleton_append]
      rw [List.dropWhile_cons_of_pos (by simp [hwsnl])]
      rfl
    rw [stripWS, hL, hR]
    rfl
  rw [cleanResponse, hstrip0, hstepA, hstepB, hstepC]

/-- A syntactically valid response whose quote text itself contains a
fence marker. -/
def tBackticks : List Char := "\x7b\"quote\": \"a ``` b\"\x7d".data

/-- C6 counterexample: wrapping this valid JSON object in code fences and
running it through the Quote Source's fence stripping parses to a different
object than parsing it directly — the `re.sub` patterns also delete the
``` sequence inside the string value. -/
theorem fence_strip_counterexample :
    (jsonParse tBackticks).isSome = true
    ∧ jsonParse (cleanResponse (wrapFences tBackticks)) ≠ jsonParse tBackticks := by
  decide

/-- C6 (amended): for every valid JSON object serialization that contains no
fence marker ```` ``` ```` of its own, wrapping it in markdown code fences
and running the Quote Source's fence-stripping and parsing yields exactly
the object obtained by parsing the unwrapped text. -/
theorem fence_wrap_parse_amended (t : List Char) (o : List (List Char × JVal))
    (hp : jsonParse t = some o) (hf : ¬ fence <:+: t) :
    jsonParse (cleanResponse (wrapFences t)) = some o := by
  rw [cleanResponse_wrapFences t (jsonParse_trimL_ne t o hp) hf, jsonParse_stripWS, hp]

/-- A fence-free response used as the C6 witness. -/
def demoResponse : List Char := "\x7b\"quote\": \"hi\", \"author\": \"x\"\x7d".data

/-- Witness for the amended C6 at a concrete response. -/
theorem fence_wrap_parse_amended_witness :
    jsonParse demoResponse
        = some [("quote".data, JVal.jstr "hi".data), ("author".data, JVal.jstr "x".data)]
    ∧ ¬ fence <:+: demoResponse
    ∧ jsonParse (cleanResponse (wrapFences demoResponse))
        = some [("quote".data, JVal.jstr "hi".data), ("author".data, JVal.jstr "x".data)] :=
  ⟨by decide, by decide, fence_wrap_parse_amended demoResponse _ (by decide) (by decide)⟩

end PhilosophyAgent
